import Mathlib

/-!
# Verification of the socket-reuse core of a QUIC transport

This file shallowly embeds the socket-reuse engine, the hole-punch
coordinator and the connection-manager facade of the transport
(`transport.go` and its reuse-pool companion) and proves or refutes the
frozen claims about them.

Modelling conventions:
* Go `time.Time` values are nanosecond counts (`Nat`); the zero value
  (`IsZero`) is `Option.none`.
* Go `time.Duration` values are nanosecond counts (`Nat`).
* Go `int` reference counts are `Int` (they can go negative).
* Go maps are association lists; map assignment replaces the entry with
  the given key if present and appends otherwise, mirroring the
  unique-key semantics of a Go map.  Map iteration order is modelled by
  list order; all claims about "some element" are stated so that any
  iteration order satisfies them.
* OS effects (the port chosen when binding port 0, kernel route queries,
  `rand` draws, channel/timer races) enter the model as explicit
  parameters ("oracles").
-/

set_option autoImplicit false

namespace QuicReuse

/-! ## Time constants -/

/-- One second in nanoseconds, mirroring `time.Second`. -/
def second : Nat := 1000000000

/-- One millisecond in nanoseconds, mirroring `time.Millisecond`. -/
def millisecond : Nat := 1000000

/-- `maxUnusedDuration = 10 * time.Second`. -/
def maxUnusedDuration : Nat := 10 * second

/-- `garbageCollectInterval = 30 * time.Second`. -/
def garbageCollectInterval : Nat := 30 * second

/-! ## Association-list maps (Go `map` semantics) -/

/-- Go map read: the value stored under `k`, if any. -/
def lookupA {α β : Type} [DecidableEq α] : List (α × β) → α → Option β
  | [], _ => none
  | (k', v) :: rest, k => if k = k' then some v else lookupA rest k

/-- Go map assignment `m[k] = v`: replace the entry with key `k` if
present, else append a new entry. -/
def updA {α β : Type} [DecidableEq α] (k : α) (v : β) : List (α × β) → List (α × β)
  | [] => [(k, v)]
  | (k', v') :: rest => if k = k' then (k, v) :: rest else (k', v') :: updA k v rest

/-! ## Counted sockets (`reuseConn`) -/

/-- The mutable state of a `reuseConn`: its reference count and the
`unusedSince` timestamp (`none` is Go's zero `time.Time`). -/
structure ReuseConnState where
  refCount : Int
  unusedSince : Option Nat
deriving DecidableEq

/-- `IncreaseCount`: increment the count and zero `unusedSince`. -/
def increaseCount (c : ReuseConnState) : ReuseConnState :=
  { refCount := c.refCount + 1, unusedSince := none }

/-- `DecreaseCount`: decrement the count; when the decrement lands
exactly on zero, record the current time in `unusedSince`. -/
def decreaseCount (now : Nat) (c : ReuseConnState) : ReuseConnState :=
  let r := c.refCount - 1
  { refCount := r, unusedSince := if r = 0 then some now else c.unusedSince }

/-- `ShouldGarbageCollect(now)`: `!c.unusedSince.IsZero() &&
c.unusedSince.Add(maxUnusedDuration).Before(now)`.  Note that
`Time.Before` is a strict comparison. -/
def shouldGarbageCollect (c : ReuseConnState) (now : Nat) : Bool :=
  match c.unusedSince with
  | none => false
  | some t => decide (t + maxUnusedDuration < now)

/-! ## The reuse pool (`reuse`)

Sockets are identified by numeric ids handed out by a counter; `conns`
maps each id to the socket's counted state, while `unicast` and `global`
are the two indices of the pool, storing socket ids exactly as the
source stores `*reuseConn` pointers. -/

/-- The state of one reuse pool. -/
structure PoolState where
  /-- id generator for newly created sockets -/
  nextId : Nat
  /-- per-socket counted state -/
  conns : List (Nat × ReuseConnState)
  /-- `unicast map[string]map[int]*reuseConn` (socket ids) -/
  unicast : List (String × List (Nat × Nat))
  /-- `global map[int]*reuseConn` (socket ids) -/
  global : List (Nat × Nat)
  /-- `garbageCollectorRunning` -/
  gcRunning : Bool
deriving DecidableEq

/-- A freshly constructed pool (`newReuse`): both indices empty. -/
def initState : PoolState :=
  { nextId := 0, conns := [], unicast := [], global := [], gcRunning := false }

/-- The counted state of socket `cid` (a fresh, never-used socket state
if the id is unknown). -/
def getConn (st : PoolState) (cid : Nat) : ReuseConnState :=
  (lookupA st.conns cid).getD ⟨0, none⟩

/-- Overwrite the counted state of socket `cid`. -/
def setConn (st : PoolState) (cid : Nat) (c : ReuseConnState) : PoolState :=
  { st with conns := updA cid c st.conns }

/-- `conn.IncreaseCount()` performed on the socket `cid` of the pool. -/
def incConnIn (st : PoolState) (cid : Nat) : PoolState :=
  setConn st cid (increaseCount (getConn st cid))

/-- `conn.DecreaseCount()` performed on the socket `cid` of the pool. -/
def decConnIn (now : Nat) (st : PoolState) (cid : Nat) : PoolState :=
  setConn st cid (decreaseCount now (getConn st cid))

/-- `maybeStartGarbageCollector`: after it, the reaper flag is set
whether or not it was before. -/
def maybeStartGC (st : PoolState) : PoolState :=
  { st with gcRunning := true }

/-- The index insertion performed by `reuse.Listen` after the bind: into
`global[port]` when the bound address is unspecified, else into
`unicast[ip][port]` (creating the inner map if absent). -/
def registerConn (st : PoolState) (isWildcard : Bool) (ip : String) (port : Nat)
    (cid : Nat) : PoolState :=
  if isWildcard then { st with global := updA port cid st.global }
  else
    { st with
      unicast :=
        updA ip (updA port cid ((lookupA st.unicast ip).getD [])) st.unicast }

/-- `reuse.Listen`: bind (the OS-resolved address enters as
`isWildcard`, `ip`, `port`), wrap with count 1, ensure the reaper is
running, register in the matching index.  Returns the new socket's id
and the new pool state. -/
def reuseListen (st : PoolState) (isWildcard : Bool) (ip : String) (port : Nat) :
    Nat × PoolState :=
  let cid := st.nextId
  let st1 : PoolState :=
    { st with
      nextId := st.nextId + 1
      conns := updA cid (increaseCount ⟨0, none⟩) st.conns }
  (cid, registerConn (maybeStartGC st1) isWildcard ip port cid)

/-- The double loop at the top of `dialLocked`: walk the resolved source
IPs in order; for the first one whose `unicast` inner map exists and is
non-empty, return one of its sockets.  An existing-but-empty inner map
falls through to the next IP, exactly as the source's inner `range`
loop does. -/
def findUnicastConn (unicast : List (String × List (Nat × Nat))) :
    List String → Option Nat
  | [] => none
  | ip :: rest =>
    match lookupA unicast ip with
    | some ((_, c) :: _) => some c
    | some [] => findUnicastConn unicast rest
    | none => findUnicastConn unicast rest

/-- `dialLocked`: pick a unicast socket for one of the source IPs, else
any global socket, else bind a fresh wildcard socket (the OS-chosen
port enters as `freshPort`) and register it in `global`. -/
def dialLocked (st : PoolState) (ips : List String) (freshPort : Nat) :
    Nat × PoolState :=
  match findUnicastConn st.unicast ips with
  | some c => (c, st)
  | none =>
    match st.global with
    | (_, c) :: _ => (c, st)
    | [] =>
      let cid := st.nextId
      (cid,
        { st with
          nextId := st.nextId + 1
          conns := updA cid ⟨0, none⟩ st.conns
          global := updA freshPort cid st.global })

/-- `reuse.Dial`: select via `dialLocked`, `IncreaseCount` the chosen
socket, ensure the reaper is running. -/
def reuseDial (st : PoolState) (ips : List String) (freshPort : Nat) :
    Nat × PoolState :=
  let r := dialLocked st ips freshPort
  (r.1, maybeStartGC (incConnIn r.2 r.1))

/-- Whether the reaper keeps the index entry `pc` (port, socket id) at
time `now`. -/
def gcKeep (st : PoolState) (now : Nat) (pc : Nat × Nat) : Bool :=
  !(shouldGarbageCollect (getConn st pc.2) now)

/-- One pass of `runGarbageCollector`'s ticker body: drop reapable
sockets from `global`, drop reapable sockets from each `unicast` inner
map and then drop empty inner maps, and clear the running flag when
both indices ended up empty. -/
def gcStep (now : Nat) (st : PoolState) : PoolState :=
  let global' := st.global.filter (gcKeep st now)
  let unicast' :=
    (st.unicast.map (fun e => (e.1, e.2.filter (gcKeep st now)))).filter
      (fun e => !e.2.isEmpty)
  { st with
    global := global'
    unicast := unicast'
    gcRunning := if global'.isEmpty && unicast'.isEmpty then false else st.gcRunning }

/-- The ids of one `unicast` entry's sockets. -/
def innerIds (e : String × List (Nat × Nat)) : List Nat :=
  e.2.map Prod.snd

/-- Every socket id tracked by the pool's two indices, with
multiplicity. -/
def allIds (st : PoolState) : List Nat :=
  st.global.map Prod.snd ++ (st.unicast.map innerIds).flatten

/-- The pool invariant of the claim: within each index no two sockets
share a key, and each tracked socket id occurs at most once across
`global ∪ unicast` (hence under exactly one key in exactly one index);
ids are also below the generator, which makes fresh ids new. -/
structure Inv (st : PoolState) : Prop where
  globalKeys : (st.global.map Prod.fst).Nodup
  outerKeys : (st.unicast.map Prod.fst).Nodup
  innerKeys : ∀ e ∈ st.unicast, (e.2.map Prod.fst).Nodup
  ids : ∀ c, (allIds st).count c ≤ 1
  idsLt : ∀ c ∈ allIds st, c < st.nextId

/-- The pool's operations as a step relation: `Listen`, `Dial`, a
socket-count release, and one reaper pass. -/
inductive Step : PoolState → PoolState → Prop
  | listen (st : PoolState) (w : Bool) (ip : String) (port : Nat) :
      Step st (reuseListen st w ip port).2
  | dial (st : PoolState) (ips : List String) (freshPort : Nat) :
      Step st (reuseDial st ips freshPort).2
  | release (st : PoolState) (now cid : Nat) :
      Step st (decConnIn now st cid)
  | gc (st : PoolState) (now : Nat) :
      Step st (gcStep now st)

/-- States reachable from the fresh pool by any sequence of steps. -/
inductive Reachable : PoolState → Prop
  | init : Reachable initState
  | step {s t : PoolState} : Reachable s → Step s t → Reachable t

/-- The selection condition of `dialLocked`'s first phase, as the claim
states it: some resolved source IP has a non-empty `unicast` inner
map. -/
def hasUnicastCandidate (unicast : List (String × List (Nat × Nat)))
    (ips : List String) : Prop :=
  ∃ ip ∈ ips, ∃ inner, lookupA unicast ip = some inner ∧ inner ≠ []

/-! ## Connection-manager facade: `connManager.Close` -/

/-- The outcomes the two pools' `Close` calls would produce, were they
invoked (`none` = success). -/
structure CmClose where
  err6 : Option String
  err4 : Option String
deriving DecidableEq

/-- What one call to `connManager.Close` does: which pool closes were
invoked and what error was returned. -/
structure CmCloseOutcome where
  close6Called : Bool
  close4Called : Bool
  result : Option String
deriving DecidableEq

/-- `connManager.Close`: close the UDP6 pool; if that fails return its
error at once, otherwise close the UDP4 pool and return its result. -/
def connManagerClose (s : CmClose) : CmCloseOutcome :=
  match s.err6 with
  | some e => ⟨true, false, some e⟩
  | none => ⟨true, true, s.err4⟩

/-! ## Transport facade: `transport.Dial` after address resolution -/

/-- `errorCodeConnectionGating = 0x47415445` ("GATE"). -/
def errorCodeConnectionGating : Nat := 0x47415445

/-- The descriptive error returned when the identity collaborator's key
channel is empty after the handshake. -/
def remotePubKeyMissingMsg : String :=
  "go-libp2p-quic-transport BUG: expected remote pub key to be set"

/-- The observable effects of one run of `transport.Dial` from the point
where the socket has been acquired from the connection manager. -/
structure DialOutcome where
  /-- whether `sess.CloseWithError` was invoked -/
  sessionClosed : Bool
  /-- the application error code passed to `CloseWithError` (0 if unused) -/
  sessionCloseCode : Nat
  /-- number of direct `pconn.DecreaseCount()` calls made by `Dial` itself -/
  releases : Nat
  /-- whether the session-termination watcher goroutine was spawned -/
  watcherSpawned : Bool
  /-- the error returned, `none` on success -/
  errMsg : Option String
deriving DecidableEq

/-- `transport.Dial` from the QUIC handshake onwards, with the
collaborator responses as parameters: the handshake result, whether the
identity key channel holds a key at the non-blocking read, whether the
local-address-to-multiaddr conversion succeeds, and the gater's presence
and verdict. -/
def transportDialFrom (handshakeErr : Option String) (keyPresent : Bool)
    (localOk : Bool) (gaterPresent : Bool) (gaterAccepts : Bool) : DialOutcome :=
  match handshakeErr with
  | some e => ⟨false, 0, 1, false, some e⟩
  | none =>
    if keyPresent = false then
      ⟨false, 0, 1, false, some remotePubKeyMissingMsg⟩
    else if localOk = false then
      ⟨true, 0, 0, true, some "local multiaddr conversion failed"⟩
    else if gaterPresent && !gaterAccepts then
      ⟨true, errorCodeConnectionGating, 0, true, some "secured connection gated"⟩
    else ⟨false, 0, 0, true, none⟩

/-! ## Hole-punch coordinator -/

/-- `HolePunchTimeout = 5 * time.Second`. -/
def HolePunchTimeout : Nat := 5 * second

/-- `ErrHolePunching`. -/
def ErrHolePunching : String := "hole punching attempted; no active dial"

/-- Why `ctx.Done()` fired: the 5-second deadline installed by
`context.WithTimeout` expired, or the caller's context was cancelled.
Both close the same `Done` channel. -/
inductive HPCause
  | deadline
  | cancelled
deriving DecidableEq

/-- Which arm of the per-iteration `select` fires. -/
inductive HPSelect
  | delivered
  | timerFired
  | ctxDone (cause : HPCause)
deriving DecidableEq

/-- The oracle for one iteration of the punch loop: the outcomes of
`rand.Read` and `pconn.WriteTo`, the `rand.Intn` draw, and the `select`
arm that fires. -/
structure HPIter where
  randErr : Option String
  writeErr : Option String
  oracle : Nat
  sel : HPSelect
deriving DecidableEq

/-- The result of a terminating run of `holePunch`: whether a connection
was returned, the returned error, and how many times the probe socket's
count was released (`defer pconn.DecreaseCount()` included). -/
structure HPResult where
  gotConn : Bool
  err : Option String
  releases : Nat
deriving DecidableEq

/-- The failure exit of `holePunch`: under the table lock, a last-chance
non-blocking read of the channel either salvages a delivered connection
or returns `punchErr`; the deferred release runs either way. -/
def finishPunch (e : String) (salvage : Bool) : HPResult :=
  if salvage then ⟨true, none, 1⟩ else ⟨false, some e, 1⟩

/-- The transmit loop of `holePunch`, driven by the per-iteration
oracles.  `none` means the scripted events were exhausted with the loop
still running. -/
def holePunchLoop (salvage : Bool) : List HPIter → Option HPResult
  | [] => none
  | it :: rest =>
    match it.randErr with
    | some e => some (finishPunch e salvage)
    | none =>
      match it.writeErr with
      | some e => some (finishPunch e salvage)
      | none =>
        match it.sel with
        | .delivered => some ⟨true, none, 1⟩
        | .timerFired => holePunchLoop salvage rest
        | .ctxDone _ => some (finishPunch ErrHolePunching salvage)

/-- `transport.holePunch` given the oracles: the connection-manager dial
result, whether the key is already in the hole-punching table, the loop
events, and whether a connection is salvageable at the failure exit. -/
def holePunch (dialErr : Option String) (dupKey : Bool)
    (iters : List HPIter) (salvage : Bool) : Option HPResult :=
  match dialErr with
  | some e => some ⟨false, some e, 0⟩
  | none =>
    if dupKey then some ⟨false, some "already punching hole", 1⟩
    else holePunchLoop salvage iters

/-! ## Hole-punch transmit schedule -/

/-- `maxSleep := 10 * (i+1) * (i+1)` milliseconds, capped at 200. -/
def maxSleepAt (i : Nat) : Nat :=
  if 10 * (i + 1) * (i + 1) > 200 then 200 else 10 * (i + 1) * (i + 1)

/-- `rand.Intn(n)` returns a value in `[0, n)`; the oracle picks which. -/
def intn (n : Nat) (oracle : Nat) : Nat := oracle % n

/-- The inter-probe sleep for attempt `i`:
`10*time.Millisecond + time.Duration(rand.Intn(maxSleep))*time.Millisecond`,
expressed in milliseconds. -/
def punchSleepMs (i : Nat) (oracle : Nat) : Nat := 10 + intn (maxSleepAt i) oracle

/-! ## Theorems: counted sockets (C2, C10) -/

/-- C2 counterexample: at the exact boundary `now = idle_since +
max_unused_duration` the code returns `false` (the comparison in
`ShouldGarbageCollect` is strict), so the claimed "iff `now ≥ idle_since +
max_unused_duration`" fails at the concrete input `idle_since = 0`,
`now = maxUnusedDuration`. -/
theorem shouldGarbageCollect_boundary_cex :
    ¬ (shouldGarbageCollect ⟨0, some 0⟩ maxUnusedDuration = true ↔
       ∃ t, (⟨0, some 0⟩ : ReuseConnState).unusedSince = some t ∧
         t + maxUnusedDuration ≤ maxUnusedDuration) := by
  intro h
  have hfalse : shouldGarbageCollect ⟨0, some 0⟩ maxUnusedDuration = false := by
    simp [shouldGarbageCollect]
  have htrue := h.mpr ⟨0, rfl, by omega⟩
  rw [hfalse] at htrue
  exact Bool.false_ne_true htrue

/-- C2 (amended): `ShouldGarbageCollect(now)` returns true iff the idle
timestamp is set and `now` is strictly later than `idle_since +
max_unused_duration`; at the exact boundary it returns false. -/
theorem shouldGarbageCollect_iff (c : ReuseConnState) (now : Nat) :
    shouldGarbageCollect c now = true ↔
      ∃ t, c.unusedSince = some t ∧ t + maxUnusedDuration < now := by
  cases h : c.unusedSince with
  | none => simp [shouldGarbageCollect, h]
  | some t => simp [shouldGarbageCollect, h]

/-- C10: `DecreaseCount` has no underflow guard.  Starting from count `0`
with a previously set idle timestamp `t`, a decrement yields count `-1`
while `unusedSince` keeps the old value `t` (the timestamp is written only
when the decrement lands exactly on `0`), and a subsequent
`IncreaseCount` brings the count back to `0`, not `1`. -/
theorem decreaseCount_underflow (t now : Nat) :
    decreaseCount now ⟨0, some t⟩ = ⟨-1, some t⟩ ∧
    (increaseCount (decreaseCount now ⟨0, some t⟩)).refCount = 0 ∧
    ∀ (c : ReuseConnState) (now2 : Nat),
      (decreaseCount now2 c).unusedSince =
        if c.refCount - 1 = 0 then some now2 else c.unusedSince := by
  refine ⟨?_, ?_, ?_⟩
  · simp [decreaseCount]
  · simp [decreaseCount, increaseCount]
  · intro c now2
    simp [decreaseCount]

/-! ## Theorems: connection manager (C7) -/

/-- C7 counterexample: when closing the UDP6 pool fails, `Close` returns
that error without ever invoking the UDP4 pool's close, refuting "a
failure closing one pool does not prevent the other pool from being
closed". -/
theorem connManagerClose_skips_udp4 :
    (connManagerClose ⟨some "close failed", none⟩).close4Called = false ∧
    (connManagerClose ⟨some "close failed", none⟩).result = some "close failed" :=
  ⟨rfl, rfl⟩

/-- C7 (amended): `connManager.Close` always closes the UDP6 pool first;
the UDP4 pool is closed only when the UDP6 close succeeded, and the
returned error is the UDP6 error if any, else the UDP4 result. -/
theorem connManagerClose_spec (s : CmClose) :
    (connManagerClose s).close6Called = true ∧
    (connManagerClose s).close4Called = s.err6.isNone ∧
    (connManagerClose s).result = s.err6.or s.err4 := by
  obtain ⟨e6, e4⟩ := s
  cases e6 <;> simp [connManagerClose, Option.or]

/-! ## Theorems: transport facade (C5) -/

/-- C5 counterexample: with a successful handshake and an empty key
channel, `Dial` releases the socket count and returns the descriptive
error, but it does NOT close the established session (`sessionClosed`
is `false`), refuting the claim that the session is closed on this
path. -/
theorem dial_missing_key_session_not_closed :
    (transportDialFrom none false true false true).sessionClosed = false ∧
    (transportDialFrom none false true false true).releases = 1 ∧
    (transportDialFrom none false true false true).errMsg =
      some remotePubKeyMissingMsg :=
  ⟨rfl, rfl, rfl⟩

/-- C5 (amended): when the handshake succeeds but the non-blocking read
of the key channel yields no remote public key, `Dial` releases the
socket's reference count exactly once and returns the descriptive error;
it does not close the session and spawns no watcher. -/
theorem dial_missing_key_releases_and_errors (localOk gaterPresent gaterAccepts : Bool) :
    transportDialFrom none false localOk gaterPresent gaterAccepts =
      ⟨false, 0, 1, false, some remotePubKeyMissingMsg⟩ := rfl

/-! ## Theorems: hole-punch coordinator (C6, C9) -/

/-- C6 counterexample: exiting the punch loop because the 5-second
deadline expired and exiting it because the caller cancelled produce
identical results — both set `punchErr = ErrHolePunching` — so the two
exit causes are not distinguishable. -/
theorem holePunch_timeout_cancel_same_result :
    holePunchLoop false [⟨none, none, 0, .ctxDone .deadline⟩] =
      holePunchLoop false [⟨none, none, 0, .ctxDone .cancelled⟩] ∧
    holePunchLoop false [⟨none, none, 0, .ctxDone .deadline⟩] =
      some ⟨false, some ErrHolePunching, 1⟩ :=
  ⟨rfl, rfl⟩

/-- C6 (amended): whichever cause fires `ctx.Done()` — deadline expiry or
caller cancellation — the loop exits with the same `ErrHolePunching`
error (subject to the same salvage read); the cause is not recorded. -/
theorem holePunch_ctxDone_same_error (pre : List HPIter) (c : HPCause)
    (o : Nat) (salvage : Bool)
    (hpre : ∀ it ∈ pre, it.randErr = none ∧ it.writeErr = none ∧ it.sel = .timerFired) :
    holePunchLoop salvage (pre ++ [⟨none, none, o, .ctxDone c⟩]) =
      some (finishPunch ErrHolePunching salvage) := by
  induction pre with
  | nil => rfl
  | cons it rest ih =>
    obtain ⟨h1, h2, h3⟩ := hpre it (List.mem_cons_self it rest)
    have hrest : ∀ x ∈ rest, x.randErr = none ∧ x.writeErr = none ∧ x.sel = .timerFired :=
      fun x hx => hpre x (List.mem_cons_of_mem it hx)
    simp only [List.cons_append, holePunchLoop, h1, h2, h3]
    exact ih hrest

/-- C6 witness: a run with one timer tick and then a deadline-caused
`ctx.Done()` ends in the `ErrHolePunching` failure. -/
theorem holePunch_ctxDone_same_error_w :
    holePunchLoop true
      [⟨none, none, 3, .timerFired⟩, ⟨none, none, 0, .ctxDone .deadline⟩] =
      some (finishPunch ErrHolePunching true) := by
  have h := holePunch_ctxDone_same_error [⟨none, none, 3, .timerFired⟩]
    .deadline 0 true (by intro it hit; simp at hit; simp [hit])
  simpa using h

/-- Both branches of the failure exit run the deferred release once. -/
theorem finishPunch_releases (e : String) (salvage : Bool) :
    (finishPunch e salvage).releases = 1 := by
  cases salvage <;> rfl

/-- C9: once the connection-manager dial has succeeded, every
terminating execution of `holePunch` releases the acquired socket count
exactly once, on every exit path (duplicate key, delivered connection,
send error, context done, salvage or not). -/
theorem holePunch_releases_once (dupKey : Bool) (iters : List HPIter)
    (salvage : Bool) (res : HPResult)
    (h : holePunch none dupKey iters salvage = some res) :
    res.releases = 1 := by
  simp only [holePunch] at h
  by_cases hd : dupKey
  · rw [if_pos hd] at h
    rw [← Option.some.inj h]
  · rw [if_neg hd] at h
    induction iters with
    | nil => exact absurd h (by simp [holePunchLoop])
    | cons it rest ih =>
      simp only [holePunchLoop] at h
      cases hr : it.randErr with
      | some e =>
        rw [hr] at h
        rw [← Option.some.inj h]
        exact finishPunch_releases e salvage
      | none =>
        rw [hr] at h
        cases hw : it.writeErr with
        | some e =>
          rw [hw] at h
          rw [← Option.some.inj h]
          exact finishPunch_releases e salvage
        | none =>
          rw [hw] at h
          cases hs : it.sel with
          | delivered =>
            rw [hs] at h
            rw [← Option.some.inj h]
          | timerFired =>
            rw [hs] at h
            exact ih h
          | ctxDone c =>
            rw [hs] at h
            rw [← Option.some.inj h]
            exact finishPunch_releases ErrHolePunching salvage

/-- C9 witness: the run where the first probe's sleep is interrupted by a
delivered connection releases the count exactly once. -/
theorem holePunch_releases_once_w : (HPResult.mk true none 1).releases = 1 :=
  holePunch_releases_once false [⟨none, none, 0, .delivered⟩] false _ rfl

/-! ## Theorems: transmit schedule (C8) -/

/-- C8 counterexample: at attempt `i = 4` the claimed draw interval
`[0, min(10·(i+1)², 200)]` contains `200`, but `rand.Intn` never
produces its (exclusive) bound, so no oracle yields the draw `200`. -/
theorem punchSleep_draw_excludes_200 :
    200 ≤ maxSleepAt 4 ∧ ¬ ∃ o, intn (maxSleepAt 4) o = 200 := by
  constructor
  · decide
  · rintro ⟨o, h⟩
    have hlt : o % 200 < 200 := Nat.mod_lt o (by omega)
    simp [intn, maxSleepAt] at h
    omega

/-- C8 (amended): the extra sleep drawn at attempt `i` always lies in
`[0, min(10·(i+1)², 200) − 1]` (the upper endpoint is excluded), every
value of that interval is drawable, and the inter-probe spacing is at
most `209` ms — in particular it never exceeds `210` ms. -/
theorem punchSleep_schedule (i o : Nat) :
    intn (maxSleepAt i) o < maxSleepAt i ∧
    maxSleepAt i ≤ 200 ∧
    punchSleepMs i o ≤ 209 ∧
    (∀ r, r < maxSleepAt i → intn (maxSleepAt i) r = r) := by
  have hpos : 0 < maxSleepAt i := by
    unfold maxSleepAt
    split
    · omega
    · positivity
  have hle : maxSleepAt i ≤ 200 := by
    unfold maxSleepAt
    split <;> omega
  have hlt : intn (maxSleepAt i) o < maxSleepAt i := Nat.mod_lt o hpos
  refine ⟨hlt, hle, ?_, ?_⟩
  · unfold punchSleepMs
    omega
  · intro r hr
    exact Nat.mod_eq_of_lt hr

/-- C8 witness: at attempt `3` with oracle `500` the sleep is within the
209 ms bound. -/
theorem punchSleep_schedule_w : punchSleepMs 3 500 ≤ 209 :=
  (punchSleep_schedule 3 500).2.2.1

/-! ## Theorems: association-list helpers -/

theorem lookupA_mem {α β : Type} [DecidableEq α] {l : List (α × β)} {k : α} {v : β}
    (h : lookupA l k = some v) : (k, v) ∈ l := by
  induction l with
  | nil => exact absurd h (by simp [lookupA])
  | cons q rest ih =>
    obtain ⟨k', v'⟩ := q
    simp only [lookupA] at h
    by_cases hk : k = k'
    · rw [if_pos hk] at h
      rw [hk, ← Option.some.inj h]
      exact List.mem_cons_self _ _
    · rw [if_neg hk] at h
      exact List.mem_cons_of_mem _ (ih h)

theorem lookupA_eq_none {α β : Type} [DecidableEq α] {l : List (α × β)} {k : α} :
    lookupA l k = none ↔ k ∉ l.map Prod.fst := by
  induction l with
  | nil => simp [lookupA]
  | cons q rest ih =>
    obtain ⟨k', v'⟩ := q
    by_cases hk : k = k' <;> simp [lookupA, hk, ih]

theorem lookupA_updA_self {α β : Type} [DecidableEq α] (l : List (α × β)) (k : α) (v : β) :
    lookupA (updA k v l) k = some v := by
  induction l with
  | nil => simp [updA, lookupA]
  | cons q rest ih =>
    obtain ⟨k', v'⟩ := q
    by_cases hk : k = k' <;> simp [updA, lookupA, hk, ih]

theorem updA_of_not_mem {α β : Type} [DecidableEq α] {l : List (α × β)} {k : α} (v : β)
    (h : k ∉ l.map Prod.fst) : updA k v l = l ++ [(k, v)] := by
  induction l with
  | nil => rfl
  | cons q rest ih =>
    obtain ⟨k', v'⟩ := q
    simp only [List.map_cons, List.mem_cons] at h
    push_neg at h
    simp only [updA, if_neg h.1]
    rw [ih h.2]
    rfl

theorem updA_decomp {α β : Type} [DecidableEq α] {l : List (α × β)} {k : α} {v₀ : β} (v : β)
    (h : lookupA l k = some v₀) :
    ∃ l₁ l₂, l = l₁ ++ (k, v₀) :: l₂ ∧ updA k v l = l₁ ++ (k, v) :: l₂ := by
  induction l with
  | nil => exact absurd h (by simp [lookupA])
  | cons q rest ih =>
    obtain ⟨k', v'⟩ := q
    simp only [lookupA] at h
    by_cases hk : k = k'
    · rw [if_pos hk] at h
      refine ⟨[], rest, ?_, ?_⟩
      · rw [← hk, ← Option.some.inj h]
        rfl
      · simp only [updA, if_pos hk]
        rfl
    · rw [if_neg hk] at h
      obtain ⟨l₁, l₂, he, hu⟩ := ih h
      refine ⟨(k', v') :: l₁, l₂, ?_, ?_⟩
      · rw [he]
        rfl
      · simp only [updA, if_neg hk, hu]
        rfl

theorem updA_map_fst {α β : Type} [DecidableEq α] (l : List (α × β)) (k : α) (v : β) :
    (updA k v l).map Prod.fst =
      if k ∈ l.map Prod.fst then l.map Prod.fst else l.map Prod.fst ++ [k] := by
  induction l with
  | nil => simp [updA]
  | cons q rest ih =>
    obtain ⟨k', v'⟩ := q
    by_cases hk : k = k'
    · simp [updA, hk]
    · by_cases hm : k ∈ rest.map Prod.fst <;> simp [updA, hk, hm, ih]

theorem updA_keys_nodup {α β : Type} [DecidableEq α] {l : List (α × β)} (k : α) (v : β)
    (h : (l.map Prod.fst).Nodup) : ((updA k v l).map Prod.fst).Nodup := by
  rw [updA_map_fst]
  split
  · exact h
  · next hm => simp [List.nodup_append, h, hm]

theorem mem_updA {α β : Type} [DecidableEq α] {l : List (α × β)} {k : α} {v : β}
    {q : α × β} (h : q ∈ updA k v l) : q = (k, v) ∨ q ∈ l := by
  induction l with
  | nil =>
    simp [updA] at h
    exact Or.inl h
  | cons e rest ih =>
    obtain ⟨k', v'⟩ := e
    by_cases hk : k = k'
    · simp only [updA, if_pos hk] at h
      rcases List.mem_cons.mp h with h1 | h2
      · exact Or.inl h1
      · exact Or.inr (List.mem_cons_of_mem _ h2)
    · simp only [updA, if_neg hk] at h
      rcases List.mem_cons.mp h with h1 | h2
      · exact Or.inr (h1 ▸ List.mem_cons_self _ _)
      · rcases ih h2 with h3 | h4
        · exact Or.inl h3
        · exact Or.inr (List.mem_cons_of_mem _ h4)

theorem mem_updA_snd {α β : Type} [DecidableEq α] {l : List (α × β)} {k : α} {v x : β}
    (h : x ∈ (updA k v l).map Prod.snd) : x = v ∨ x ∈ l.map Prod.snd := by
  rcases List.mem_map.mp h with ⟨q, hq, hx⟩
  rcases mem_updA hq with h1 | h2
  · left
    rw [← hx, h1]
  · right
    rw [← hx]
    exact List.mem_map_of_mem Prod.snd h2

theorem count_updA_snd {α : Type} [DecidableEq α]
    (l : List (α × Nat)) (k : α) (v : Nat) (c : Nat) :
    ((updA k v l).map Prod.snd).count c ≤
      (if v = c then 1 else 0) + (l.map Prod.snd).count c := by
  induction l with
  | nil =>
    simp only [updA, List.map_cons, List.map_nil, List.count_cons,
      List.count_nil, beq_iff_eq]
    omega
  | cons q rest ih =>
    obtain ⟨k', v'⟩ := q
    by_cases hk : k = k'
    · rw [show updA k v ((k', v') :: rest) = (k, v) :: rest from by
        simp [updA, hk]]
      simp only [List.map_cons, List.count_cons, beq_iff_eq]
      omega
    · rw [show updA k v ((k', v') :: rest) = (k', v') :: updA k v rest from by
        simp [updA, hk]]
      simp only [List.map_cons, List.count_cons, beq_iff_eq]
      have h := ih
      omega

/-! ## Theorems: `dialLocked` selection (C1) -/

theorem findUnicastConn_nil (ips : List String) :
    findUnicastConn [] ips = none := by
  induction ips with
  | nil => rfl
  | cons ip rest ih => simp [findUnicastConn, lookupA, ih]

theorem hasUnicastCandidate_cons (u : List (String × List (Nat × Nat)))
    (ip : String) (rest : List String) :
    hasUnicastCandidate u (ip :: rest) ↔
      (∃ inner, lookupA u ip = some inner ∧ inner ≠ []) ∨
        hasUnicastCandidate u rest := by
  unfold hasUnicastCandidate
  constructor
  · rintro ⟨x, hx, inner, hi, hne⟩
    rcases List.mem_cons.mp hx with rfl | hx2
    · exact Or.inl ⟨inner, hi, hne⟩
    · exact Or.inr ⟨x, hx2, inner, hi, hne⟩
  · rintro (⟨inner, hi, hne⟩ | ⟨x, hx, inner, hi, hne⟩)
    · exact ⟨ip, List.mem_cons_self _ _, inner, hi, hne⟩
    · exact ⟨x, List.mem_cons_of_mem _ hx, inner, hi, hne⟩

theorem findUnicastConn_none_iff (u : List (String × List (Nat × Nat)))
    (ips : List String) :
    findUnicastConn u ips = none ↔ ¬ hasUnicastCandidate u ips := by
  induction ips with
  | nil =>
    simp only [findUnicastConn, hasUnicastCandidate]
    simp
  | cons ip rest ih =>
    rw [hasUnicastCandidate_cons]
    cases hl : lookupA u ip with
    | none =>
      have hstep : findUnicastConn u (ip :: rest) = findUnicastConn u rest := by
        simp [findUnicastConn, hl]
      rw [hstep, ih]
      simp [hl]
    | some inner =>
      cases inner with
      | nil =>
        have hstep : findUnicastConn u (ip :: rest) = findUnicastConn u rest := by
          simp [findUnicastConn, hl]
        rw [hstep, ih]
        simp [hl]
      | cons pc tl =>
        obtain ⟨port, c⟩ := pc
        have hstep : findUnicastConn u (ip :: rest) = some c := by
          simp [findUnicastConn, hl]
        rw [hstep]
        constructor
        · intro h
          exact absurd h (Option.some_ne_none c)
        · intro h
          exact absurd (Or.inl ⟨(port, c) :: tl, rfl, List.cons_ne_nil _ _⟩) h

theorem findUnicastConn_some {u : List (String × List (Nat × Nat))}
    {ips : List String} {c : Nat} (h : findUnicastConn u ips = some c) :
    ∃ ip ∈ ips, ∃ inner, lookupA u ip = some inner ∧ c ∈ inner.map Prod.snd := by
  induction ips with
  | nil => exact absurd h (by simp [findUnicastConn])
  | cons ip rest ih =>
    cases hl : lookupA u ip with
    | none =>
      have hstep : findUnicastConn u (ip :: rest) = findUnicastConn u rest := by
        simp [findUnicastConn, hl]
      rw [hstep] at h
      obtain ⟨x, hx, inner, hi, hc⟩ := ih h
      exact ⟨x, List.mem_cons_of_mem _ hx, inner, hi, hc⟩
    | some inner =>
      cases inner with
      | nil =>
        have hstep : findUnicastConn u (ip :: rest) = findUnicastConn u rest := by
          simp [findUnicastConn, hl]
        rw [hstep] at h
        obtain ⟨x, hx, inner, hi, hc⟩ := ih h
        exact ⟨x, List.mem_cons_of_mem _ hx, inner, hi, hc⟩
      | cons pc tl =>
        obtain ⟨port, c'⟩ := pc
        have hstep : findUnicastConn u (ip :: rest) = some c' := by
          simp [findUnicastConn, hl]
        rw [hstep] at h
        rw [← Option.some.inj h]
        exact ⟨ip, List.mem_cons_self _ _, (port, c') :: tl, hl, by simp⟩

theorem getConn_incConnIn (s : PoolState) (c : Nat) :
    getConn (incConnIn s c) c = increaseCount (getConn s c) := by
  simp [incConnIn, setConn, getConn, lookupA_updA_self]

/-- C1: `reuse.Dial` selects the socket in the claimed order.  If some
resolved source IP has a non-empty `unicast` inner map, a socket from
such an inner map is returned and neither index changes; otherwise, if
`global` is non-empty, a socket of `global` is returned and neither
index changes; otherwise a fresh socket (id `st.nextId`) is created,
registered in `global` under its bound port, and ends with count 1.  In
each case the chosen socket's count is the value `dialLocked` handed
over plus one. -/
theorem reuseDial_selects_in_order (st : PoolState) (ips : List String) (fp : Nat) :
    (hasUnicastCandidate st.unicast ips →
      (∃ ip ∈ ips, ∃ inner, lookupA st.unicast ip = some inner ∧
        (reuseDial st ips fp).1 ∈ inner.map Prod.snd) ∧
      (reuseDial st ips fp).2.global = st.global ∧
      (reuseDial st ips fp).2.unicast = st.unicast) ∧
    (¬ hasUnicastCandidate st.unicast ips → st.global ≠ [] →
      (reuseDial st ips fp).1 ∈ st.global.map Prod.snd ∧
      (reuseDial st ips fp).2.global = st.global ∧
      (reuseDial st ips fp).2.unicast = st.unicast) ∧
    (¬ hasUnicastCandidate st.unicast ips → st.global = [] →
      (reuseDial st ips fp).1 = st.nextId ∧
      (reuseDial st ips fp).2.global = [(fp, st.nextId)] ∧
      (reuseDial st ips fp).2.unicast = st.unicast ∧
      (getConn (reuseDial st ips fp).2 st.nextId).refCount = 1) ∧
    (getConn (reuseDial st ips fp).2 (reuseDial st ips fp).1).refCount =
      (getConn (dialLocked st ips fp).2 (reuseDial st ips fp).1).refCount + 1 := by
  refine ⟨?_, ?_, ?_, ?_⟩
  · intro hcand
    cases hfc : findUnicastConn st.unicast ips with
    | none => exact absurd hcand ((findUnicastConn_none_iff _ _).mp hfc)
    | some c =>
      have hD : dialLocked st ips fp = (c, st) := by
        simp [dialLocked, hfc]
      obtain ⟨ip, hip, inner, hi, hc⟩ := findUnicastConn_some hfc
      refine ⟨⟨ip, hip, inner, hi, ?_⟩, ?_, ?_⟩ <;>
        simp [reuseDial, hD, incConnIn, setConn, maybeStartGC, hc]
  · intro hncand hne
    have hfc : findUnicastConn st.unicast ips = none :=
      (findUnicastConn_none_iff _ _).mpr hncand
    cases hg : st.global with
    | nil => exact absurd hg hne
    | cons pc rest =>
      obtain ⟨p, c⟩ := pc
      have hD : dialLocked st ips fp = (c, st) := by
        simp [dialLocked, hfc, hg]
      refine ⟨?_, ?_, ?_⟩ <;>
        simp [reuseDial, hD, incConnIn, setConn, maybeStartGC, hg]
  · intro hncand hg
    have hfc : findUnicastConn st.unicast ips = none :=
      (findUnicastConn_none_iff _ _).mpr hncand
    have hD : dialLocked st ips fp =
        (st.nextId,
          { st with
            nextId := st.nextId + 1
            conns := updA st.nextId ⟨0, none⟩ st.conns
            global := [(fp, st.nextId)] }) := by
      simp [dialLocked, hfc, hg, updA]
    refine ⟨?_, ?_, ?_, ?_⟩ <;>
      simp [reuseDial, hD, incConnIn, setConn, maybeStartGC, getConn,
        lookupA_updA_self, increaseCount]
  · show (getConn (maybeStartGC (incConnIn (dialLocked st ips fp).2
        (dialLocked st ips fp).1)) (dialLocked st ips fp).1).refCount =
      (getConn (dialLocked st ips fp).2 (dialLocked st ips fp).1).refCount + 1
    have : getConn (maybeStartGC (incConnIn (dialLocked st ips fp).2
        (dialLocked st ips fp).1)) (dialLocked st ips fp).1 =
        increaseCount (getConn (dialLocked st ips fp).2 (dialLocked st ips fp).1) :=
      getConn_incConnIn _ _
    rw [this]
    rfl

/-- C1 witness: on a pool holding exactly one wildcard socket (after a
Listen), a Dial with no matching unicast entry returns a socket from
the `global` index. -/
theorem reuseDial_selects_in_order_w :
    (reuseDial (reuseListen initState true "192.0.2.1" 7).2 ["10.0.0.1"] 9).1 ∈
      ((reuseListen initState true "192.0.2.1" 7).2).global.map Prod.snd := by
  have h := reuseDial_selects_in_order
    (reuseListen initState true "192.0.2.1" 7).2 ["10.0.0.1"] 9
  refine (h.2.1 ?_ ?_).1
  · rintro ⟨ip, hip, inner, hi, hne⟩
    revert hi
    simp [reuseListen, initState, registerConn, maybeStartGC, updA, lookupA]
  · simp [reuseListen, initState, registerConn, maybeStartGC, updA]

/-! ## Theorems: the pool invariant (C3) -/

theorem flatten_sublist {α : Type} {l₁ l₂ : List (List α)} (h : l₁.Sublist l₂) :
    l₁.flatten.Sublist l₂.flatten := by
  induction h with
  | slnil => exact List.Sublist.refl _
  | cons a h ih =>
    rw [List.flatten_cons]
    exact ih.trans (List.sublist_append_right _ _)
  | cons₂ a h ih =>
    rw [List.flatten_cons, List.flatten_cons]
    exact ih.append_left _

theorem flatten_map_sublist {α β : Type} (f g : α → List β) (l : List α)
    (h : ∀ e ∈ l, (f e).Sublist (g e)) :
    (l.map f).flatten.Sublist (l.map g).flatten := by
  induction l with
  | nil => exact List.Sublist.refl _
  | cons e rest ih =>
    simp only [List.map_cons, List.flatten_cons]
    exact List.Sublist.append (h e (List.mem_cons_self _ _))
      (ih fun x hx => h x (List.mem_cons_of_mem _ hx))

/-- In a pool satisfying the invariant, the id generator's next value is
tracked nowhere. -/
theorem count_nextId_zero (st : PoolState) (h : Inv st) :
    (st.global.map Prod.snd).count st.nextId = 0 ∧
    ((st.unicast.map innerIds).flatten).count st.nextId = 0 := by
  have hmem : st.nextId ∉ allIds st := fun hm => lt_irrefl _ (h.idsLt _ hm)
  unfold allIds at hmem
  rw [List.mem_append] at hmem
  push_neg at hmem
  exact ⟨List.count_eq_zero.mpr hmem.1, List.count_eq_zero.mpr hmem.2⟩

/-- The invariant only reads the indices and the id generator. -/
theorem inv_congr (s : PoolState) {t : PoolState} (hg : t.global = s.global)
    (hu : t.unicast = s.unicast) (hn : t.nextId = s.nextId) (h : Inv s) : Inv t := by
  have hids : allIds t = allIds s := by
    unfold allIds
    rw [hg, hu]
  refine ⟨?_, ?_, ?_, ?_, ?_⟩
  · rw [hg]
    exact h.globalKeys
  · rw [hu]
    exact h.outerKeys
  · intro e he
    rw [hu] at he
    exact h.innerKeys e he
  · intro c
    rw [hids]
    exact h.ids c
  · intro c hc
    rw [hn]
    exact h.idsLt c (hids ▸ hc)

theorem inv_init : Inv initState := by
  refine ⟨?_, ?_, ?_, ?_, ?_⟩ <;> simp [initState, allIds]

/-- The count of any id inside the unicast index after the nested
update of `reuse.Listen`'s unicast branch grows by at most one, and only
for the freshly inserted id. -/
theorem count_flatten_updA_inner (u : List (String × List (Nat × Nat)))
    (ip : String) (port cid c : Nat) :
    (((updA ip (updA port cid ((lookupA u ip).getD [])) u).map innerIds).flatten).count c ≤
      (if cid = c then 1 else 0) + ((u.map innerIds).flatten).count c := by
  cases hl : lookupA u ip with
  | none =>
    rw [updA_of_not_mem _ (lookupA_eq_none.mp hl)]
    simp only [Option.getD_none, List.map_append, List.flatten_append,
      List.count_append, List.map_cons, List.map_nil, List.flatten_cons,
      List.flatten_nil, List.append_nil, innerIds, updA, List.count_cons,
      List.count_nil, beq_iff_eq]
    omega
  | some v₀ =>
    simp only [Option.getD_some]
    obtain ⟨l₁, l₂, he, hu⟩ := updA_decomp (updA port cid v₀) hl
    rw [hu]
    conv_rhs => rw [he]
    simp only [List.map_append, List.map_cons, List.flatten_append,
      List.flatten_cons, List.count_append, innerIds]
    have hcnt := count_updA_snd v₀ port cid c
    omega

/-- `reuse.Listen` preserves the pool invariant. -/
theorem inv_listen (st : PoolState) (w : Bool) (ip : String) (port : Nat)
    (h : Inv st) : Inv (reuseListen st w ip port).2 := by
  cases w with
  | true =>
    have hres : (reuseListen st true ip port).2 =
        { nextId := st.nextId + 1
          conns := updA st.nextId (increaseCount ⟨0, none⟩) st.conns
          unicast := st.unicast
          global := updA port st.nextId st.global
          gcRunning := true } := rfl
    rw [hres]
    refine ⟨?_, ?_, ?_, ?_, ?_⟩
    · exact updA_keys_nodup _ _ h.globalKeys
    · exact h.outerKeys
    · exact h.innerKeys
    · intro c
      have hcnt := count_updA_snd st.global port st.nextId c
      have hold := h.ids c
      unfold allIds at hold ⊢
      simp only [List.count_append] at hold ⊢
      by_cases hn : st.nextId = c
      · rw [if_pos hn] at hcnt
        subst hn
        obtain ⟨h1, h2⟩ := count_nextId_zero st h
        omega
      · rw [if_neg hn] at hcnt
        omega
    · intro c hc
      unfold allIds at hc
      rw [List.mem_append] at hc
      rcases hc with hc | hc
      · rcases mem_updA_snd hc with rfl | hc2
        · exact Nat.lt_succ_self _
        · exact Nat.lt_succ_of_lt
            (h.idsLt c (List.mem_append_left _ hc2))
      · exact Nat.lt_succ_of_lt (h.idsLt c (List.mem_append_right _ hc))
  | false =>
    have hres : (reuseListen st false ip port).2 =
        { nextId := st.nextId + 1
          conns := updA st.nextId (increaseCount ⟨0, none⟩) st.conns
          unicast := updA ip
            (updA port st.nextId ((lookupA st.unicast ip).getD [])) st.unicast
          global := st.global
          gcRunning := true } := rfl
    rw [hres]
    refine ⟨?_, ?_, ?_, ?_, ?_⟩
    · exact h.globalKeys
    · exact updA_keys_nodup _ _ h.outerKeys
    · intro e he
      rcases mem_updA he with heq | hmem
      · rw [heq]
        have hnd : (((lookupA st.unicast ip).getD []).map Prod.fst).Nodup := by
          cases hl : lookupA st.unicast ip with
          | none => simp
          | some v₀ =>
            simp only [Option.getD_some]
            exact h.innerKeys (ip, v₀) (lookupA_mem hl)
        exact updA_keys_nodup _ _ hnd
      · exact h.innerKeys e hmem
    · intro c
      have hcnt := count_flatten_updA_inner st.unicast ip port st.nextId c
      have hold := h.ids c
      unfold allIds at hold ⊢
      simp only [List.count_append] at hold ⊢
      by_cases hn : st.nextId = c
      · rw [if_pos hn] at hcnt
        subst hn
        obtain ⟨h1, h2⟩ := count_nextId_zero st h
        omega
      · rw [if_neg hn] at hcnt
        omega
    · intro c hc
      unfold allIds at hc
      rw [List.mem_append] at hc
      rcases hc with hc | hc
      · exact Nat.lt_succ_of_lt (h.idsLt c (List.mem_append_left _ hc))
      · obtain ⟨L, hL, hcL⟩ := List.mem_flatten.mp hc
        obtain ⟨e, he, rfl⟩ := List.mem_map.mp hL
        rcases mem_updA he with heq | hmem
        · rw [heq] at hcL
          rcases mem_updA_snd hcL with rfl | hc2
          · exact Nat.lt_succ_self _
          · cases hl : lookupA st.unicast ip with
            | none =>
              rw [hl] at hc2
              simp at hc2
            | some v₀ =>
              rw [hl] at hc2
              simp only [Option.getD_some] at hc2
              refine Nat.lt_succ_of_lt (h.idsLt c (List.mem_append_right _ ?_))
              exact List.mem_flatten.mpr
                ⟨innerIds (ip, v₀), List.mem_map_of_mem _ (lookupA_mem hl), hc2⟩
        · refine Nat.lt_succ_of_lt (h.idsLt c (List.mem_append_right _ ?_))
          exact List.mem_flatten.mpr ⟨innerIds e, List.mem_map_of_mem _ hmem, hcL⟩

/-- `reuse.Dial` preserves the pool invariant. -/
theorem inv_dial (st : PoolState) (ips : List String) (fp : Nat)
    (h : Inv st) : Inv (reuseDial st ips fp).2 := by
  refine inv_congr (dialLocked st ips fp).2 rfl rfl rfl ?_
  cases hfc : findUnicastConn st.unicast ips with
  | some c =>
    rw [show (dialLocked st ips fp).2 = st from by simp [dialLocked, hfc]]
    exact h
  | none =>
    cases hg : st.global with
    | cons pc rest =>
      rw [show (dialLocked st ips fp).2 = st from by simp [dialLocked, hfc, hg]]
      exact h
    | nil =>
      have hD : (dialLocked st ips fp).2 =
          { nextId := st.nextId + 1
            conns := updA st.nextId ⟨0, none⟩ st.conns
            unicast := st.unicast
            global := [(fp, st.nextId)]
            gcRunning := st.gcRunning } := by
        simp [dialLocked, hfc, hg, updA]
      rw [hD]
      refine ⟨?_, ?_, ?_, ?_, ?_⟩
      · simp
      · exact h.outerKeys
      · exact h.innerKeys
      · intro c
        have hold := h.ids c
        unfold allIds at hold ⊢
        simp only [List.count_append, hg, List.map_nil, List.count_nil] at hold ⊢
        simp only [List.map_cons, List.map_nil, List.count_cons,
          List.count_nil, beq_iff_eq]
        by_cases hn : st.nextId = c
        · rw [if_pos hn]
          subst hn
          obtain ⟨-, h2⟩ := count_nextId_zero st h
          omega
        · rw [if_neg hn]
          omega
      · intro c hc
        unfold allIds at hc
        rw [List.mem_append] at hc
        rcases hc with hc | hc
        · simp at hc
          rw [hc]
          exact Nat.lt_succ_self _
        · exact Nat.lt_succ_of_lt (h.idsLt c (List.mem_append_right _ hc))

/-- A count release touches neither index nor the id generator. -/
theorem inv_release (now : Nat) (st : PoolState) (cid : Nat) (h : Inv st) :
    Inv (decConnIn now st cid) :=
  inv_congr st rfl rfl rfl h

theorem gcStep_fields (now : Nat) (st : PoolState) :
    (gcStep now st).global = st.global.filter (gcKeep st now) ∧
    (gcStep now st).unicast =
      (st.unicast.map (fun e => (e.1, e.2.filter (gcKeep st now)))).filter
        (fun e => !e.2.isEmpty) ∧
    (gcStep now st).nextId = st.nextId :=
  ⟨rfl, rfl, rfl⟩

/-- One reaper pass preserves the pool invariant. -/
theorem inv_gc (now : Nat) (st : PoolState) (h : Inv st) : Inv (gcStep now st) := by
  obtain ⟨hg, hu, hn⟩ := gcStep_fields now st
  have hsub : (allIds (gcStep now st)).Sublist (allIds st) := by
    unfold allIds
    rw [hg, hu]
    apply List.Sublist.append
    · exact (List.filter_sublist _).map _
    · refine (flatten_sublist ((List.filter_sublist _).map innerIds)).trans ?_
      rw [List.map_map]
      exact flatten_map_sublist _ _ _ fun e he => (List.filter_sublist _).map _
  refine ⟨?_, ?_, ?_, ?_, ?_⟩
  · rw [hg]
    exact h.globalKeys.sublist ((List.filter_sublist _).map _)
  · rw [hu]
    refine h.outerKeys.sublist ?_
    refine ((List.filter_sublist _).map Prod.fst).trans ?_
    rw [List.map_map]
    exact List.Sublist.refl _
  · intro e he
    rw [hu] at he
    obtain ⟨e₀, he₀, heq⟩ := List.mem_map.mp (List.mem_of_mem_filter he)
    rw [← heq]
    exact (h.innerKeys e₀ he₀).sublist ((List.filter_sublist _).map Prod.fst)
  · intro c
    exact le_trans (hsub.count_le c) (h.ids c)
  · intro c hc
    rw [hn]
    exact h.idsLt c (hsub.subset hc)

/-- C3: in every pool state reachable by Listen, Dial, count-release and
reaper steps, no two sockets share an (IP, port) key in either index and
every tracked socket id occurs under exactly one key of exactly one
index; Listen, Dial's new-socket registration, and the reaper's removals
all preserve this. -/
theorem reachable_pool_invariant (st : PoolState) (h : Reachable st) : Inv st := by
  induction h with
  | init => exact inv_init
  | step hr hs ih =>
    cases hs with
    | listen w ip port => exact inv_listen _ w ip port ih
    | dial ips fp => exact inv_dial _ ips fp ih
    | release now cid => exact inv_release now _ cid ih
    | gc now => exact inv_gc now _ ih

/-- C3 witness: the state after one wildcard Listen on a fresh pool is
reachable and satisfies the invariant. -/
theorem reachable_pool_invariant_w :
    Inv (reuseListen initState true "198.51.100.7" 4242).2 :=
  reachable_pool_invariant _
    (Reachable.step Reachable.init (Step.listen initState true "198.51.100.7" 4242))

/-! ## Theorems: Listen-then-Dial round trip (C4) -/

/-- C4: on a fresh pool, a wildcard Listen registers a socket with
count 1, and an immediately following Dial (any resolved source IPs,
any OS-chosen port) returns that same socket, whose count is then 2. -/
theorem listen_then_dial_same_socket (ip : String) (p : Nat)
    (ips : List String) (fp : Nat) :
    (reuseDial (reuseListen initState true ip p).2 ips fp).1 =
      (reuseListen initState true ip p).1 ∧
    (getConn (reuseListen initState true ip p).2
      (reuseListen initState true ip p).1).refCount = 1 ∧
    (getConn (reuseDial (reuseListen initState true ip p).2 ips fp).2
      (reuseListen initState true ip p).1).refCount = 2 := by
  have h1 : reuseListen initState true ip p =
      (0, { nextId := 1, conns := [(0, ⟨1, none⟩)], unicast := [],
            global := [(p, 0)], gcRunning := true }) := by
    simp [reuseListen, initState, registerConn, maybeStartGC, updA, increaseCount]
  rw [h1]
  have h2 : findUnicastConn ([] : List (String × List (Nat × Nat))) ips = none :=
    findUnicastConn_nil ips
  refine ⟨?_, ?_, ?_⟩ <;>
    simp [reuseDial, dialLocked, h2, incConnIn, setConn, getConn,
      maybeStartGC, lookupA, updA, increaseCount]

end QuicReuse
